import Mathlib

/-!
# Verification of the democracy-bot ranking pipeline

A shallow embedding of the core algorithms of `visualize_condorcet.py` and
`visualize_vote.py`: per-voter ranking resolution (`compute_user_rankings`),
pairwise-matrix aggregation (`compute_condorcet_matrix` / `compute_vote_matrix`)
and the Ranked-Pairs resolution (`compute_ranked_pairs`).

Modelling conventions:
* Candidate/movie ids are `Nat`; preference values are `Int` (Python ints).
* A Python `set` that is iterated is modelled as a duplicate-free list in
  first-insertion order (the deterministic reading of the spec; Python's `set`
  leaves iteration order unspecified).
* `defaultdict(set)` adjacency (`graph`, `comparison_graph`, `locked`) is
  modelled as a duplicate-free edge list in insertion order; the code only ever
  adds an edge after a membership test, so the list stays duplicate-free.
* The iterative stack traversals (`dfs` in `compute_user_rankings`,
  `would_create_cycle` in `compute_ranked_pairs`) compute the set of nodes
  reachable from a start node without passing through `blocked`/`visited`
  nodes; they are modelled by a fuelled monotone closure `reachFrom`, with
  `g.length + 1` rounds, which provably reaches the fixpoint.
* Python's stable `list.sort`/`sorted` is modelled by `List.insertionSort`
  with the non-strict key order, which is stable in the same sense.
-/

namespace DemocracyBot

/-- Preference statement `(movie_a, movie_b, preference)` as read from the
`pairwise_preferences` / `vote_preferences` table. -/
abbrev Pref := Nat × Nat × Int

/-- Add an element to a set-as-list, keeping first-insertion order. -/
def pinsert (l : List Nat) (x : Nat) : List Nat := if x ∈ l then l else l ++ [x]

/-- `compared_movie_ids`: all ids mentioned by the voter's statements, in
first-appearance order (lines 63-67 of `visualize_condorcet.py`, lines 39-42 of
`visualize_vote.py`). -/
def comparedIds (prefs : List Pref) : List Nat :=
  prefs.foldl (fun s pr => pinsert (pinsert s pr.1) pr.2.1) []

/-- `movies_to_rank`: the compared ids restricted to the target candidate set
(line 70 / line 44). -/
def moviesToRank (prefs : List Pref) (target : List Nat) : List Nat :=
  (comparedIds prefs).filter (fun m => m ∈ target)

/-- `graph[a].add(b)` guarded by `if b not in graph[a]`: add a directed edge
unless it is already present. -/
def addDirEdge (g : List (Nat × Nat)) (a b : Nat) : List (Nat × Nat) :=
  if (a, b) ∈ g then g else g ++ [(a, b)]

/-- Processing of one preference statement into the directed preference graph
(lines 86-99 / 53-63): skip statements with an endpoint outside
`movie_ids_set`; `pref > 0` yields edge a→b, `pref < 0` yields edge b→a,
`pref == 0` yields nothing; an already-present directed edge is not re-added. -/
def prefStep (ids : List Nat) (g : List (Nat × Nat)) (pr : Pref) : List (Nat × Nat) :=
  if pr.1 ∈ ids ∧ pr.2.1 ∈ ids then
    if 0 < pr.2.2 then addDirEdge g pr.1 pr.2.1
    else if pr.2.2 < 0 then addDirEdge g pr.2.1 pr.1
    else g
  else g

/-- The voter's directed preference graph. -/
def prefGraph (prefs : List Pref) (ids : List Nat) : List (Nat × Nat) :=
  prefs.foldl (prefStep ids) []

/-- One statement's contribution to the undirected comparison graph
(lines 102-106 / 66-70): both directions, regardless of the preference sign. -/
def compStep (ids : List Nat) (g : List (Nat × Nat)) (pr : Pref) : List (Nat × Nat) :=
  if pr.1 ∈ ids ∧ pr.2.1 ∈ ids then addDirEdge (addDirEdge g pr.1 pr.2.1) pr.2.1 pr.1 else g

/-- The undirected comparison graph (used only for connectivity). -/
def compGraph (prefs : List Pref) (ids : List Nat) : List (Nat × Nat) :=
  prefs.foldl (compStep ids) []

/-- One round of the monotone reachability closure: append every edge target
whose source is already reached, unless already reached or blocked. -/
def reachStep (g : List (Nat × Nat)) (blocked vis : List Nat) : List Nat :=
  g.foldl (fun acc e => if e.1 ∈ acc ∧ e.2 ∉ acc ∧ e.2 ∉ blocked then acc ++ [e.2] else acc) vis

/-- Iterated closure rounds. -/
def reachIter (g : List (Nat × Nat)) (blocked : List Nat) : Nat → List Nat → List Nat
  | 0, vis => vis
  | n + 1, vis => reachIter g blocked n (reachStep g blocked vis)

/-- Nodes reachable from `s` along edges of `g` avoiding `blocked`, in
discovery order starting with `s`.  `g.length + 1` rounds provably reach the
fixpoint.  This models the explicit-stack traversals `dfs` (with `blocked` =
previously visited nodes) and `would_create_cycle` (with `blocked = []`). -/
def reachFrom (g : List (Nat × Nat)) (blocked : List Nat) (s : Nat) : List Nat :=
  reachIter g blocked (g.length + 1) [s]

/-- Connected-component discovery (lines 109-128 / 72-88): walk the candidate
list in order, starting a traversal at each not-yet-visited candidate. -/
def componentsAux (g : List (Nat × Nat)) : List Nat → List Nat → List (List Nat)
  | [], _ => []
  | m :: rest, visited =>
    if m ∈ visited then componentsAux g rest visited
    else reachFrom g visited m :: componentsAux g rest (visited ++ reachFrom g visited m)

/-- The list of connected components of the comparison graph, in discovery
order. -/
def componentsOf (prefs : List Pref) (ids : List Nat) : List (List Nat) :=
  componentsAux (compGraph prefs ids) ids []

/-- The sort order used by `components.sort(key=lambda x: -len(x))`:
descending length. -/
def compLenLe (c d : List Nat) : Prop := d.length ≤ c.length

instance : DecidableRel compLenLe := fun c d => Nat.decLe d.length c.length

instance : IsTotal (List Nat) compLenLe := ⟨fun c d => Nat.le_total d.length c.length⟩

instance : IsTrans (List Nat) compLenLe :=
  ⟨fun _ _ _ h1 h2 => Nat.le_trans h2 h1⟩

/-- The largest length among a list of components. -/
def maxCompLen (cs : List (List Nat)) : Nat := cs.foldr (fun c m => max c.length m) 0

/-- `main_component` (lines 130-132 / 90-91): head of the stably
length-descending sorted component list, `[]` when there are no components. -/
def mainComponent (prefs : List Pref) (target : List Nat) : List Nat :=
  (((componentsOf prefs (moviesToRank prefs target)).insertionSort compLenLe).headD [])

/-- Successors of `a` in an edge list (`graph.get(a, [])`). -/
def succs (g : List (Nat × Nat)) (a : Nat) : List Nat :=
  (g.filter (fun e => e.1 = a)).map (fun e => e.2)

/-- `component_in_degree` (lines 141-145 / 93-97): number of graph edges into
`x` with both endpoints in the main component (0 for `x` outside it). -/
def compInDeg (g : List (Nat × Nat)) (main : List Nat) (x : Nat) : Int :=
  ((g.filter (fun e => e.1 ∈ main ∧ e.2 ∈ main ∧ e.2 = x)).length : Int)

/-- Decrement a tracked in-degree at one node. -/
def decAt (d : Nat → Int) (x : Nat) : Nat → Int := fun y => if y = x then d y - 1 else d y

/-- The body of `for mid in sources:` (lines 157-162 / 106-111): record the
rank, discard `mid` from `remaining`, and decrement the in-degree of each
successor still in `remaining`. -/
def srcStep (g : List (Nat × Nat)) (rank : Nat)
    (st : List (Nat × Nat) × List Nat × (Nat → Int)) (mid : Nat) :
    List (Nat × Nat) × List Nat × (Nat → Int) :=
  (st.1 ++ [(mid, rank)], st.2.1.erase mid,
    (succs g mid).foldl (fun d nb => if nb ∈ st.2.1.erase mid then decAt d nb else d) st.2.2)

/-- Processing one layer of sources. -/
def layer (g : List (Nat × Nat)) (rank : Nat) (sources : List Nat)
    (st : List (Nat × Nat) × List Nat × (Nat → Int)) :
    List (Nat × Nat) × List Nat × (Nat → Int) :=
  sources.foldl (srcStep g rank) st

/-- The layered topological sort of `compute_user_rankings` in
`visualize_condorcet.py` (lines 147-164): returns the rank assignments made
from this point on, and the candidates left unranked by a cycle. -/
def topoC (g : List (Nat × Nat)) (rem : List Nat) (d : Nat → Int) (rank : Nat) :
    List (Nat × Nat) × List Nat :=
  if rem = [] then ([], [])
  else if hs : rem.filter (fun m => d m = 0) = [] then ([], rem)
  else
    let st := layer g rank (rem.filter (fun m => d m = 0)) ([], rem, d)
    let res := topoC g st.2.1 st.2.2 (rank + 1)
    (st.1 ++ res.1, res.2)
termination_by rem.length
decreasing_by
  have hlayer : ∀ (srcs : List Nat) (rm : List (Nat × Nat)) (rem' : List Nat) (d' : Nat → Int),
      (layer g rank srcs (rm, rem', d')).2.1 = srcs.foldl List.erase rem' := by
    intro srcs
    induction srcs with
    | nil => intro rm rem' d'; rfl
    | cons s rest ih =>
      intro rm rem' d'
      simpa [layer, srcStep, List.foldl_cons] using ih _ (rem'.erase s) _
  have hle : ∀ (srcs rem' : List Nat), (srcs.foldl List.erase rem').length ≤ rem'.length := by
    intro srcs
    induction srcs with
    | nil => intro rem'; exact Nat.le_refl _
    | cons s rest ih =>
      intro rem'
      exact Nat.le_trans (ih (rem'.erase s)) (List.erase_sublist s rem').length_le
  simp only [hlayer]
  cases hfe : rem.filter (fun m => d m = 0) with
  | nil => exact absurd hfe hs
  | cons s rest =>
    have hsrem : s ∈ rem := by
      have hmem : s ∈ rem.filter (fun m => d m = 0) := by
        rw [hfe]; exact List.mem_cons_self s rest
      exact (List.mem_filter.mp hmem).1
    calc (rest.foldl List.erase (rem.erase s)).length
        ≤ (rem.erase s).length := hle rest _
      _ < rem.length := by
          rw [List.length_erase_of_mem hsrem]
          exact Nat.sub_lt (List.length_pos_of_mem hsrem) Nat.one_pos

/-- The layered topological sort of `compute_user_rankings` in
`visualize_vote.py` (lines 99-112): same loop, but a cycle simply stops the
loop without recording unranked candidates. -/
def topoV (g : List (Nat × Nat)) (rem : List Nat) (d : Nat → Int) (rank : Nat) :
    List (Nat × Nat) :=
  if rem = [] then []
  else if hs : rem.filter (fun m => d m = 0) = [] then []
  else
    let st := layer g rank (rem.filter (fun m => d m = 0)) ([], rem, d)
    st.1 ++ topoV g st.2.1 st.2.2 (rank + 1)
termination_by rem.length
decreasing_by
  have hlayer : ∀ (srcs : List Nat) (rm : List (Nat × Nat)) (rem' : List Nat) (d' : Nat → Int),
      (layer g rank srcs (rm, rem', d')).2.1 = srcs.foldl List.erase rem' := by
    intro srcs
    induction srcs with
    | nil => intro rm rem' d'; rfl
    | cons s rest ih =>
      intro rm rem' d'
      simpa [layer, srcStep, List.foldl_cons] using ih _ (rem'.erase s) _
  have hle : ∀ (srcs rem' : List Nat), (srcs.foldl List.erase rem').length ≤ rem'.length := by
    intro srcs
    induction srcs with
    | nil => intro rem'; exact Nat.le_refl _
    | cons s rest ih =>
      intro rem'
      exact Nat.le_trans (ih (rem'.erase s)) (List.erase_sublist s rem').length_le
  simp only [hlayer]
  cases hfe : rem.filter (fun m => d m = 0) with
  | nil => exact absurd hfe hs
  | cons s rest =>
    have hsrem : s ∈ rem := by
      have hmem : s ∈ rem.filter (fun m => d m = 0) := by
        rw [hfe]; exact List.mem_cons_self s rest
      exact (List.mem_filter.mp hmem).1
    calc (rest.foldl List.erase (rem.erase s)).length
        ≤ (rem.erase s).length := hle rest _
      _ < rem.length := by
          rw [List.length_erase_of_mem hsrem]
          exact Nat.sub_lt (List.length_pos_of_mem hsrem) Nat.one_pos

/-- `compute_user_rankings(prefs, unwatched_movie_ids)` from
`visualize_condorcet.py` (lines 55-166): the rank map (as an association list
in insertion order) and the unranked set (as a list). -/
def computeUserRankings (prefs : List Pref) (target : List Nat) :
    List (Nat × Nat) × List Nat :=
  if prefs = [] then ([], [])
  else
    let ids := moviesToRank prefs target
    if ids = [] then ([], [])
    else
      let g := prefGraph prefs ids
      let main := mainComponent prefs target
      let res := topoC g main (compInDeg g main) 1
      (res.1, ids.filter (fun m => m ∉ main) ++ res.2)

/-- `compute_user_rankings(prefs, option_ids_set)` from `visualize_vote.py`
(lines 34-114): only the rank map is returned. -/
def computeVoteRankings (prefs : List Pref) (target : List Nat) : List (Nat × Nat) :=
  if prefs = [] then []
  else
    let ids := moviesToRank prefs target
    if ids = [] then []
    else
      let g := prefGraph prefs ids
      let main := mainComponent prefs target
      topoV g main (compInDeg g main) 1

/-- The `in_degree` dict built alongside the preference graph (lines 84-98 /
51-63): since an increment happens exactly when an edge is added, it equals
the number of edges into `x`. -/
def inDegreeOf (g : List (Nat × Nat)) (x : Nat) : Nat :=
  (g.filter (fun e => e.2 = x)).length

/-- One voter's contribution to `matrix[i][j]` (lines 209-222 of
`visualize_condorcet.py`, lines 145-152 of `visualize_vote.py`): 1 when both
are ranked with `rank_a < rank_b`, 1 when only `a` is ranked, else 0. -/
def voterContrib (rm : List (Nat × Nat)) (a b : Nat) : Nat :=
  match rm.lookup a, rm.lookup b with
  | some ra, some rb => if ra < rb then 1 else 0
  | some _, none => 1
  | none, _ => 0

/-- The pairwise matrix entry built by `compute_condorcet_matrix` /
`compute_vote_matrix` from the participating voters' rank maps: zero on the
diagonal, otherwise the unweighted sum of the per-voter contributions. -/
def condorcetMatrix (ids : List Nat) (rankings : List (List (Nat × Nat))) (i j : Nat) : Int :=
  if i = j then 0
  else ((rankings.map (fun rm => voterContrib rm (ids.getD i 0) (ids.getD j 0))).sum : Int)

/-- Pair collection of `compute_ranked_pairs` (lines 231-241): for `i < j`,
emit `(winner, loser, margin, winner_votes)` when the counts differ, nothing
on a tie. -/
def collectPairs (n : Nat) (matrix : Nat → Nat → Int) : List (Nat × Nat × Int × Int) :=
  (List.range n).flatMap (fun i =>
    (List.range' (i + 1) (n - (i + 1))).filterMap (fun j =>
      if matrix j i < matrix i j then some (i, j, matrix i j - matrix j i, matrix i j)
      else if matrix i j < matrix j i then some (j, i, matrix j i - matrix i j, matrix j i)
      else none))

/-- The sort order of `pairs.sort(key=lambda x: (-x[2], -x[3]))`: descending
margin, then descending total votes. -/
def pairLe (p q : Nat × Nat × Int × Int) : Prop :=
  q.2.2.1 < p.2.2.1 ∨ (p.2.2.1 = q.2.2.1 ∧ q.2.2.2 ≤ p.2.2.2)

instance : DecidableRel pairLe := fun p q =>
  inferInstanceAs (Decidable (q.2.2.1 < p.2.2.1 ∨ (p.2.2.1 = q.2.2.1 ∧ q.2.2.2 ≤ p.2.2.2)))

instance : IsTotal (Nat × Nat × Int × Int) pairLe :=
  ⟨fun p q => by unfold pairLe; omega⟩

instance : IsTrans (Nat × Nat × Int × Int) pairLe :=
  ⟨fun p q r hpq hqr => by unfold pairLe at *; omega⟩

/-- The stable sort of the pair records (line 244). -/
def sortPairs (ps : List (Nat × Nat × Int × Int)) : List (Nat × Nat × Int × Int) :=
  ps.insertionSort pairLe

/-- `would_create_cycle` (lines 249-260): `winner` is reachable from `loser`
over already-locked edges (the traversal starts at `loser` itself). -/
def wouldCreateCycle (g : List (Nat × Nat)) (winner loser : Nat) : Bool :=
  decide (winner ∈ reachFrom g [] loser)

/-- Locking one pair (lines 262-264): skip the edge when it would create a
cycle. -/
def lockStep (g : List (Nat × Nat)) (p : Nat × Nat × Int × Int) : List (Nat × Nat) :=
  if wouldCreateCycle g p.1 p.2.1 then g else g ++ [(p.1, p.2.1)]

/-- Locking all sorted pairs in order. -/
def lockPairs (ps : List (Nat × Nat × Int × Int)) : List (Nat × Nat) :=
  ps.foldl lockStep []

/-- The locked graph built by `compute_ranked_pairs`. -/
def rankedPairsLocked (n : Nat) (matrix : Nat → Nat → Int) : List (Nat × Nat) :=
  lockPairs (sortPairs (collectPairs n matrix))

/-- The `in_degree` dict over the locked graph (lines 267-270). -/
def lockedIndeg (locked : List (Nat × Nat)) (i : Nat) : Int :=
  (inDegreeOf locked i : Int)

/-- `sorted(candidates, key=lambda i: movie_titles[i])`: stable ascending sort
by display label. -/
def sortByLabel (titles : Nat → String) (l : List Nat) : List Nat :=
  l.insertionSort (fun i j => titles i ≤ titles j)

/-- The body of `for s in sources:` in the final topological sort
(lines 285-289): append to the ranking (modelled by the surrounding layer),
discard from `remaining`, and unconditionally decrement successors. -/
def rpStep (locked : List (Nat × Nat)) (st : List Nat × (Nat → Int)) (s : Nat) :
    List Nat × (Nat → Int) :=
  (st.1.erase s, (succs locked s).foldl decAt st.2)

/-- Processing one sorted source layer of the final topological sort. -/
def rpLayer (locked : List (Nat × Nat)) (ss : List Nat) (st : List Nat × (Nat → Int)) :
    List Nat × (Nat → Int) :=
  ss.foldl (rpStep locked) st

/-- The final topological sort of `compute_ranked_pairs` (lines 272-291):
emit each zero-in-degree layer sorted by label; if no source exists, emit all
remaining candidates sorted by label and stop. -/
def rpLoop (locked : List (Nat × Nat)) (titles : Nat → String) (rem : List Nat)
    (d : Nat → Int) : List Nat :=
  if rem = [] then []
  else if hs : rem.filter (fun i => d i = 0) = [] then sortByLabel titles rem
  else
    let ss := sortByLabel titles (rem.filter (fun i => d i = 0))
    let st := rpLayer locked ss (rem, d)
    ss ++ rpLoop locked titles st.1 st.2
termination_by rem.length
decreasing_by
  have hlayer : ∀ (ss rem' : List Nat) (d' : Nat → Int),
      (rpLayer locked ss (rem', d')).1 = ss.foldl List.erase rem' := by
    intro ss
    induction ss with
    | nil => intro rem' d'; rfl
    | cons s rest ih =>
      intro rem' d'
      simpa [rpLayer, rpStep, List.foldl_cons] using ih (rem'.erase s) _
  have hle : ∀ (srcs rem' : List Nat), (srcs.foldl List.erase rem').length ≤ rem'.length := by
    intro srcs
    induction srcs with
    | nil => intro rem'; exact Nat.le_refl _
    | cons s rest ih =>
      intro rem'
      exact Nat.le_trans (ih (rem'.erase s)) (List.erase_sublist s rem').length_le
  simp only [hlayer]
  cases hss : sortByLabel titles (rem.filter (fun i => d i = 0)) with
  | nil =>
    exfalso
    apply hs
    have hlen := congrArg List.length hss
    rw [sortByLabel, List.length_insertionSort] at hlen
    exact List.length_eq_zero.mp hlen
  | cons s rest =>
    have hsrem : s ∈ rem := by
      have hmem : s ∈ sortByLabel titles (rem.filter (fun i => d i = 0)) := by
        rw [hss]; exact List.mem_cons_self s rest
      rw [sortByLabel] at hmem
      exact (List.mem_filter.mp ((List.mem_insertionSort _).mp hmem)).1
    calc (rest.foldl List.erase (rem.erase s)).length
        ≤ (rem.erase s).length := hle rest _
      _ < rem.length := by
          rw [List.length_erase_of_mem hsrem]
          exact Nat.sub_lt (List.length_pos_of_mem hsrem) Nat.one_pos

/-- `compute_ranked_pairs(movie_ids, movie_titles, matrix)` (lines 227-291):
the final ranking over candidate positions `0..n-1` and the locked graph. -/
def computeRankedPairs (n : Nat) (titles : Nat → String) (matrix : Nat → Nat → Int) :
    List Nat × List (Nat × Nat) :=
  (rpLoop (rankedPairsLocked n matrix) titles (List.range n)
      (lockedIndeg (rankedPairsLocked n matrix)),
    rankedPairsLocked n matrix)

/-- Reachability along the edges of an edge list (the semantic counterpart of
the computed `reachFrom`). -/
def EdgeReach (g : List (Nat × Nat)) (a b : Nat) : Prop :=
  Relation.ReflTransGen (fun x y => (x, y) ∈ g) a b

/-- An edge list is acyclic: no locked edge can be completed to a cycle by a
path back from its loser to its winner. -/
def AcyclicEdges (g : List (Nat × Nat)) : Prop :=
  ∀ e ∈ g, ¬ EdgeReach g e.2 e.1

/-! ## Theorems -/

/-- Claim C3: for `i ≠ j` the matrix entry is the unweighted sum over voters
of a 0/1 contribution; the contribution of a voter is 1 exactly when both
candidates are in the voter's rank map with `rank(i) < rank(j)`, or when `i`
is in the rank map and `j` is not, and 0 in every other case (neither ranked,
only `j` ranked, equal or reversed ranks). -/
theorem matrix_builder_contrib (ids : List Nat) (rankings : List (List (Nat × Nat)))
    (i j : Nat) (hij : i ≠ j) :
    condorcetMatrix ids rankings i j =
      (((rankings.map (fun rm => voterContrib rm (ids.getD i 0) (ids.getD j 0))).sum : Nat) : Int) ∧
    (∀ (rm : List (Nat × Nat)) (a b : Nat),
      (voterContrib rm a b = 1 ↔
        ((∃ ra, rm.lookup a = some ra ∧ ∃ rb, rm.lookup b = some rb ∧ ra < rb) ∨
         ((∃ ra, rm.lookup a = some ra) ∧ rm.lookup b = none))) ∧
      (voterContrib rm a b = 0 ↔
        ¬ ((∃ ra, rm.lookup a = some ra ∧ ∃ rb, rm.lookup b = some rb ∧ ra < rb) ∨
           ((∃ ra, rm.lookup a = some ra) ∧ rm.lookup b = none)))) := by
  constructor
  · rw [condorcetMatrix, if_neg hij]
  · intro rm a b
    rcases h1 : rm.lookup a with _ | ra <;> rcases h2 : rm.lookup b with _ | rb <;>
        simp only [voterContrib, h1, h2] <;> simp

theorem matrix_builder_contrib_witness :
    (0 : Nat) ≠ 1 ∧
    condorcetMatrix [7, 8] [[(7, 1)]] 0 1 =
      ((([[(7, 1)]].map
          (fun rm => voterContrib rm ([7, 8].getD 0 0) ([7, 8].getD 1 0))).sum : Nat) : Int) :=
  ⟨by decide, (matrix_builder_contrib [7, 8] [[(7, 1)]] 0 1 (by decide)).1⟩

set_option maxRecDepth 200000 in
/-- Claim C6: when the per-voter topological sort finds no zero-in-degree
candidate while candidates remain, nobody receives a rank and all remaining
candidates are moved to the unranked set; concretely a voter stating the
3-cycle 0≻1, 1≻2, 2≻0 gets an empty rank map with all three unranked, and an
empty rank map contributes nothing to any matrix entry. -/
theorem cycle_unranked_spec :
    (∀ (g : List (Nat × Nat)) (rem : List Nat) (d : Nat → Int) (rank : Nat),
        rem ≠ [] → rem.filter (fun m => d m = 0) = [] → topoC g rem d rank = ([], rem)) ∧
    computeUserRankings [(0, 1, 1), (1, 2, 1), (2, 0, 1)] [0, 1, 2] = ([], [0, 1, 2]) ∧
    (∀ a b : Nat, voterContrib [] a b = 0) := by
  refine ⟨?_, ?_, ?_⟩
  · intro g rem d rank h1 h2
    rw [topoC.eq_def]
    simp [h1, h2]
  · simp only [computeUserRankings.eq_def]
    rw [topoC.eq_def]
    decide
  · intro a b; rfl

theorem cycle_unranked_spec_witness :
    (([5] : List Nat) ≠ [] ∧
      ([5] : List Nat).filter (fun m => (fun _ : Nat => (1 : Int)) m = 0) = []) ∧
    topoC [] [5] (fun _ => 1) 1 = ([], [5]) :=
  ⟨⟨by decide, by decide⟩, cycle_unranked_spec.1 [] [5] (fun _ => 1) 1 (by decide) (by decide)⟩

set_option maxRecDepth 200000 in
/-- Claim C8 fails on the code: after recording 0≻1, the later duplicate
statement (0, 1, -1) on the same unordered pair but with the opposite
direction adds the reverse edge 1→0 and raises the in-degree of 0 from 0 to 1
(and the voter's ranking collapses to a 2-cycle, both candidates unranked). -/
theorem dup_pair_counterexample :
    prefGraph [(0, 1, 1), (0, 1, -1)] [0, 1] = [(0, 1), (1, 0)] ∧
    prefStep [0, 1] [(0, 1)] (0, 1, -1) = [(0, 1), (1, 0)] ∧
    inDegreeOf (prefGraph [(0, 1, 1), (0, 1, -1)] [0, 1]) 0 = 1 ∧
    inDegreeOf (prefGraph [(0, 1, 1)] [0, 1]) 0 = 0 ∧
    computeUserRankings [(0, 1, 1), (0, 1, -1)] [0, 1] = ([], [0, 1]) := by
  refine ⟨by decide, by decide, by decide, by decide, ?_⟩
  simp only [computeUserRankings.eq_def]
  rw [topoC.eq_def]
  decide

/-- Claim C8 amended: deduplication is per directed edge, not per unordered
pair: a later statement implying an already-present directed edge (same
direction, in either argument order) adds no edge and changes no in-degree,
as does a tie statement; but a later opposite-direction duplicate adds the
reversed edge when it is absent. -/
theorem directed_edge_dedup (ids : List Nat) (g : List (Nat × Nat)) (a b : Nat) (p : Int) :
    ((0 : Int) < p → (a, b) ∈ g → prefStep ids g (a, b, p) = g) ∧
    (p < 0 → (b, a) ∈ g → prefStep ids g (a, b, p) = g) ∧
    (p = 0 → prefStep ids g (a, b, p) = g) ∧
    (0 < p → a ∈ ids → b ∈ ids → (a, b) ∉ g → prefStep ids g (a, b, p) = g ++ [(a, b)]) ∧
    (p < 0 → a ∈ ids → b ∈ ids → (b, a) ∉ g → prefStep ids g (a, b, p) = g ++ [(b, a)]) := by
  refine ⟨?_, ?_, ?_, ?_, ?_⟩
  · intro hp hmem
    by_cases hid : a ∈ ids ∧ b ∈ ids
    · simp [prefStep, addDirEdge, hid, hp, hmem]
    · simp [prefStep, hid]
  · intro hp hmem
    have hnp : ¬ (0 : Int) < p := by omega
    by_cases hid : a ∈ ids ∧ b ∈ ids
    · simp [prefStep, addDirEdge, hid, hp, hnp, hmem]
    · simp [prefStep, hid]
  · intro hp
    by_cases hid : a ∈ ids ∧ b ∈ ids
    · simp [prefStep, hid, hp]
    · simp [prefStep, hid]
  · intro hp ha hb hmem
    simp [prefStep, addDirEdge, ha, hb, hp, hmem]
  · intro hp ha hb hmem
    have hnp : ¬ (0 : Int) < p := by omega
    simp [prefStep, addDirEdge, ha, hb, hp, hnp, hmem]

theorem directed_edge_dedup_witness :
    ((0 : Int) < 1 ∧ ((0 : Nat), (1 : Nat)) ∈ [((0 : Nat), (1 : Nat))]) ∧
    prefStep [0, 1] [(0, 1)] (0, 1, 1) = [(0, 1)] :=
  ⟨⟨by decide, by decide⟩, (directed_edge_dedup [0, 1] [(0, 1)] 0 1 1).1 (by decide) (by decide)⟩

theorem topoC_fst_eq_topoV (g : List (Nat × Nat)) (rem : List Nat) (d : Nat → Int)
    (rank : Nat) : (topoC g rem d rank).1 = topoV g rem d rank := by
  refine topoC.induct g (fun rem d rank => (topoC g rem d rank).1 = topoV g rem d rank)
    ?_ ?_ ?_ rem d rank
  · intro d rank
    rw [topoC.eq_def, topoV.eq_def]
    simp
  · intro rem d rank h1 h2
    rw [topoC.eq_def, topoV.eq_def]
    simp [h1, h2]
  · intro rem d rank h1 h2 st ih
    rw [topoC.eq_def, topoV.eq_def]
    simp only [if_neg h1, dif_neg h2]
    rw [ih]

/-- Claim C10: the two independent implementations of per-voter ranking
resolution agree: for every statement list and target set, the rank map of
`compute_user_rankings` in `visualize_condorcet.py` equals the rank map of
`compute_user_rankings` in `visualize_vote.py`, both as association lists and
pointwise. -/
theorem rank_maps_agree (prefs : List Pref) (target : List Nat) :
    (computeUserRankings prefs target).1 = computeVoteRankings prefs target ∧
    (∀ x, ((computeUserRankings prefs target).1).lookup x =
      (computeVoteRankings prefs target).lookup x) := by
  have h : (computeUserRankings prefs target).1 = computeVoteRankings prefs target := by
    simp only [computeUserRankings.eq_def, computeVoteRankings.eq_def]
    split_ifs with h1 h2
    · rfl
    · rfl
    · exact topoC_fst_eq_topoV _ _ _ _
  exact ⟨h, fun x => by rw [h]⟩

theorem rank_maps_agree_witness :
    (computeUserRankings [(0, 1, 1)] [0, 1]).1 = computeVoteRankings [(0, 1, 1)] [0, 1] :=
  (rank_maps_agree [(0, 1, 1)] [0, 1]).1

theorem mem_pinsert {l : List Nat} {x y : Nat} : x ∈ pinsert l y ↔ x ∈ l ∨ x = y := by
  unfold pinsert
  split
  · rename_i h
    constructor
    · exact Or.inl
    · rintro (hx | rfl)
      · exact hx
      · exact h
  · simp [List.mem_append]

theorem pinsert_nodup {l : List Nat} (h : l.Nodup) (y : Nat) : (pinsert l y).Nodup := by
  unfold pinsert
  split
  · exact h
  · rename_i hy
    simpa [List.nodup_append] using ⟨h, fun hmem => hy hmem⟩

theorem mem_comparedIds_foldl (prefs : List Pref) :
    ∀ (acc : List Nat) (x : Nat),
      x ∈ prefs.foldl (fun s pr => pinsert (pinsert s pr.1) pr.2.1) acc ↔
        x ∈ acc ∨ ∃ pr ∈ prefs, x = pr.1 ∨ x = pr.2.1 := by
  induction prefs with
  | nil => intro acc x; simp
  | cons pr rest ih =>
    intro acc x
    rw [List.foldl_cons, ih, mem_pinsert, mem_pinsert]
    constructor
    · rintro (((hx | rfl) | rfl) | ⟨q, hq, h⟩)
      · exact Or.inl hx
      · exact Or.inr ⟨pr, List.mem_cons_self _ _, Or.inl rfl⟩
      · exact Or.inr ⟨pr, List.mem_cons_self _ _, Or.inr rfl⟩
      · exact Or.inr ⟨q, List.mem_cons_of_mem _ hq, h⟩
    · rintro (hx | ⟨q, hq, h⟩)
      · exact Or.inl (Or.inl (Or.inl hx))
      · rcases List.mem_cons.mp hq with rfl | hq2
        · rcases h with h1 | h1
          · exact Or.inl (Or.inl (Or.inr h1))
          · exact Or.inl (Or.inr h1)
        · exact Or.inr ⟨q, hq2, h⟩

theorem mem_comparedIds {prefs : List Pref} {x : Nat} :
    x ∈ comparedIds prefs ↔ ∃ pr ∈ prefs, x = pr.1 ∨ x = pr.2.1 := by
  rw [comparedIds, mem_comparedIds_foldl]
  simp

theorem comparedIds_nodup (prefs : List Pref) : (comparedIds prefs).Nodup := by
  rw [comparedIds]
  generalize hacc : ([] : List Nat) = acc
  have hnd : acc.Nodup := hacc ▸ List.nodup_nil
  clear hacc
  induction prefs generalizing acc with
  | nil => exact hnd
  | cons pr rest ih => exact ih _ (pinsert_nodup (pinsert_nodup hnd _) _)

theorem mem_moviesToRank {prefs : List Pref} {target : List Nat} {x : Nat} :
    x ∈ moviesToRank prefs target ↔
      ((∃ pr ∈ prefs, x = pr.1 ∨ x = pr.2.1) ∧ x ∈ target) := by
  rw [moviesToRank, List.mem_filter]
  simp [mem_comparedIds]

theorem moviesToRank_nodup (prefs : List Pref) (target : List Nat) :
    (moviesToRank prefs target).Nodup :=
  (comparedIds_nodup prefs).filter _

theorem mem_addDirEdge {g : List (Nat × Nat)} {a b : Nat} {e : Nat × Nat}
    (h : e ∈ addDirEdge g a b) : e ∈ g ∨ e = (a, b) := by
  unfold addDirEdge at h
  split at h
  · exact Or.inl h
  · simpa using h

theorem compGraph_mem {prefs : List Pref} {ids : List Nat} {e : Nat × Nat}
    (h : e ∈ compGraph prefs ids) : e.1 ∈ ids ∧ e.2 ∈ ids := by
  rw [compGraph] at h
  generalize hacc : ([] : List (Nat × Nat)) = acc at h
  have hinv : ∀ e' ∈ acc, e'.1 ∈ ids ∧ e'.2 ∈ ids := by
    intro e' he'; rw [← hacc] at he'; simp at he'
  clear hacc
  induction prefs generalizing acc with
  | nil => exact hinv e h
  | cons pr rest ih =>
    rw [List.foldl_cons] at h
    refine ih _ h ?_
    intro e' he'
    unfold compStep at he'
    split at he'
    · rename_i hpr
      rcases mem_addDirEdge he' with he2 | rfl
      · rcases mem_addDirEdge he2 with he3 | rfl
        · exact hinv e' he3
        · exact ⟨hpr.1, hpr.2⟩
      · exact ⟨hpr.2, hpr.1⟩
    · exact hinv e' he'

theorem reachStep_append (g : List (Nat × Nat)) (blocked vis : List Nat) :
    ∃ ext, reachStep g blocked vis = vis ++ ext := by
  rw [reachStep]
  generalize vis = acc
  induction g generalizing acc with
  | nil => exact ⟨[], by simp⟩
  | cons e rest ih =>
    rw [List.foldl_cons]
    split
    · obtain ⟨ext, hext⟩ := ih (acc ++ [e.2])
      exact ⟨[e.2] ++ ext, by rw [hext, List.append_assoc]⟩
    · exact ih acc

theorem reachIter_append (g : List (Nat × Nat)) (blocked : List Nat) :
    ∀ (fuel : Nat) (vis : List Nat), ∃ ext, reachIter g blocked fuel vis = vis ++ ext := by
  intro fuel
  induction fuel with
  | zero => intro vis; exact ⟨[], by simp [reachIter]⟩
  | succ n ih =>
    intro vis
    obtain ⟨e1, he1⟩ := reachStep_append g blocked vis
    obtain ⟨e2, he2⟩ := ih (reachStep g blocked vis)
    exact ⟨e1 ++ e2, by rw [reachIter, he2, he1, List.append_assoc]⟩

theorem start_mem_reachFrom (g : List (Nat × Nat)) (blocked : List Nat) (s : Nat) :
    s ∈ reachFrom g blocked s := by
  obtain ⟨ext, hext⟩ := reachIter_append g blocked (g.length + 1) [s]
  rw [reachFrom, hext]
  simp

theorem reachFrom_head (g : List (Nat × Nat)) (blocked : List Nat) (s : Nat) :
    (reachFrom g blocked s).head? = some s := by
  obtain ⟨ext, hext⟩ := reachIter_append g blocked (g.length + 1) [s]
  rw [reachFrom, hext]
  rfl

theorem reachStep_fold_sub (g : List (Nat × Nat)) (blocked : List Nat) :
    ∀ (l : List (Nat × Nat)) (acc : List Nat), (∀ e ∈ l, e ∈ g) →
      ∀ x ∈ l.foldl
          (fun acc e => if e.1 ∈ acc ∧ e.2 ∉ acc ∧ e.2 ∉ blocked then acc ++ [e.2] else acc)
          acc,
        x ∈ acc ∨ ∃ e ∈ g, x = e.2 ∧ x ∉ blocked := by
  intro l
  induction l with
  | nil => intro acc _ x hx; exact Or.inl hx
  | cons e rest ih =>
    intro acc hl x hx
    rw [List.foldl_cons] at hx
    by_cases hc : e.1 ∈ acc ∧ e.2 ∉ acc ∧ e.2 ∉ blocked
    · rw [if_pos hc] at hx
      rcases ih (acc ++ [e.2]) (fun e' he' => hl e' (List.mem_cons_of_mem _ he')) x hx with
        hx' | hf
      · rcases List.mem_append.mp hx' with hx2 | hx2
        · exact Or.inl hx2
        · have hxe : x = e.2 := by simpa using hx2
          exact Or.inr ⟨e, hl e (List.mem_cons_self _ _), hxe, hxe ▸ hc.2.2⟩
      · exact Or.inr hf
    · rw [if_neg hc] at hx
      exact ih acc (fun e' he' => hl e' (List.mem_cons_of_mem _ he')) x hx

theorem mem_reachStep_sub {g : List (Nat × Nat)} {blocked vis : List Nat} {x : Nat}
    (h : x ∈ reachStep g blocked vis) : x ∈ vis ∨ ∃ e ∈ g, x = e.2 ∧ x ∉ blocked :=
  reachStep_fold_sub g blocked g vis (fun _ he => he) x h

theorem mem_reachIter_sub (g : List (Nat × Nat)) (blocked : List Nat) :
    ∀ (fuel : Nat) (vis : List Nat) (x : Nat), x ∈ reachIter g blocked fuel vis →
      x ∈ vis ∨ ∃ e ∈ g, x = e.2 ∧ x ∉ blocked := by
  intro fuel
  induction fuel with
  | zero => intro vis x hx; exact Or.inl hx
  | succ n ih =>
    intro vis x hx
    rw [reachIter] at hx
    rcases ih (reachStep g blocked vis) x hx with hx' | hf
    · exact mem_reachStep_sub hx'
    · exact Or.inr hf

theorem mem_reachFrom_sub {g : List (Nat × Nat)} {blocked : List Nat} {s x : Nat}
    (h : x ∈ reachFrom g blocked s) : x = s ∨ ∃ e ∈ g, x = e.2 ∧ x ∉ blocked := by
  rcases mem_reachIter_sub g blocked (g.length + 1) [s] x h with hx | hf
  · exact Or.inl (by simpa using hx)
  · exact Or.inr hf

theorem reachStep_fold_nodup (blocked : List Nat) :
    ∀ (l : List (Nat × Nat)) (acc : List Nat), acc.Nodup →
      (l.foldl
          (fun acc e => if e.1 ∈ acc ∧ e.2 ∉ acc ∧ e.2 ∉ blocked then acc ++ [e.2] else acc)
          acc).Nodup := by
  intro l
  induction l with
  | nil => intro acc h; exact h
  | cons e rest ih =>
    intro acc h
    rw [List.foldl_cons]
    by_cases hc : e.1 ∈ acc ∧ e.2 ∉ acc ∧ e.2 ∉ blocked
    · rw [if_pos hc]
      refine ih _ ?_
      simpa [List.nodup_append] using ⟨h, fun hmem => hc.2.1 hmem⟩
    · rw [if_neg hc]
      exact ih _ h

theorem reachStep_nodup {g : List (Nat × Nat)} {blocked vis : List Nat} (h : vis.Nodup) :
    (reachStep g blocked vis).Nodup :=
  reachStep_fold_nodup blocked g vis h

theorem reachIter_nodup (g : List (Nat × Nat)) (blocked : List Nat) :
    ∀ (fuel : Nat) (vis : List Nat), vis.Nodup → (reachIter g blocked fuel vis).Nodup := by
  intro fuel
  induction fuel with
  | zero => intro vis h; exact h
  | succ n ih => intro vis h; exact ih _ (reachStep_nodup h)

theorem reachFrom_nodup (g : List (Nat × Nat)) (blocked : List Nat) (s : Nat) :
    (reachFrom g blocked s).Nodup :=
  reachIter_nodup g blocked _ _ (List.nodup_singleton s)

theorem layer_fst_eq (g : List (Nat × Nat)) (rank : Nat) :
    ∀ (srcs : List Nat) (rm : List (Nat × Nat)) (rem : List Nat) (d : Nat → Int),
      (layer g rank srcs (rm, rem, d)).1 = rm ++ srcs.map (fun s => (s, rank)) := by
  intro srcs
  induction srcs with
  | nil => intro rm rem d; simp [layer]
  | cons s rest ih =>
    intro rm rem d
    simpa [layer, srcStep, List.foldl_cons] using ih (rm ++ [(s, rank)]) (rem.erase s) _

theorem layer_rem_eq (g : List (Nat × Nat)) (rank : Nat) :
    ∀ (srcs : List Nat) (rm : List (Nat × Nat)) (rem : List Nat) (d : Nat → Int),
      (layer g rank srcs (rm, rem, d)).2.1 = srcs.foldl List.erase rem := by
  intro srcs
  induction srcs with
  | nil => intro rm rem d; rfl
  | cons s rest ih =>
    intro rm rem d
    simpa [layer, srcStep, List.foldl_cons] using ih _ (rem.erase s) _

theorem foldl_erase_eq_filter :
    ∀ (srcs rem : List Nat), rem.Nodup →
      srcs.foldl List.erase rem = rem.filter (fun x => x ∉ srcs) := by
  intro srcs
  induction srcs with
  | nil => intro rem _; simp
  | cons s rest ih =>
    intro rem h
    rw [List.foldl_cons, ih (rem.erase s) (h.erase s), List.Nodup.erase_eq_filter h,
      List.filter_filter]
    refine List.filter_congr ?_
    intro a _
    by_cases h1 : a = s <;> by_cases h2 : a ∈ rest <;> simp [h1, h2]

theorem componentsAux_mem (g : List (Nat × Nat)) :
    ∀ (l visited c : List Nat), c ∈ componentsAux g l visited →
      ∃ m ∈ l, ∃ vis', c = reachFrom g vis' m := by
  intro l
  induction l with
  | nil => intro visited c hc; simp [componentsAux] at hc
  | cons m rest ih =>
    intro visited c hc
    simp only [componentsAux] at hc
    split at hc
    · obtain ⟨m', hm', hv⟩ := ih _ _ hc
      exact ⟨m', List.mem_cons_of_mem _ hm', hv⟩
    · rcases List.mem_cons.mp hc with rfl | hc2
      · exact ⟨m, List.mem_cons_self _ _, visited, rfl⟩
      · obtain ⟨m', hm', hv⟩ := ih _ _ hc2
        exact ⟨m', List.mem_cons_of_mem _ hm', hv⟩

theorem mainComponent_cases (prefs : List Pref) (target : List Nat) :
    mainComponent prefs target = [] ∨
      mainComponent prefs target ∈ componentsOf prefs (moviesToRank prefs target) := by
  rw [mainComponent]
  cases hcs : (componentsOf prefs (moviesToRank prefs target)).insertionSort compLenLe with
  | nil => exact Or.inl rfl
  | cons c rest =>
    right
    have hc : c ∈ (componentsOf prefs (moviesToRank prefs target)).insertionSort compLenLe := by
      rw [hcs]; exact List.mem_cons_self _ _
    simpa using (List.mem_insertionSort compLenLe).mp hc

theorem mainComponent_sub (prefs : List Pref) (target : List Nat) :
    ∀ x ∈ mainComponent prefs target, x ∈ moviesToRank prefs target := by
  intro x hx
  rcases mainComponent_cases prefs target with h | h
  · rw [h] at hx; simp at hx
  · obtain ⟨m, hm, vis', hc⟩ := componentsAux_mem _ _ _ _ h
    rw [hc] at hx
    rcases mem_reachFrom_sub hx with rfl | ⟨e, he, rfl, _⟩
    · exact hm
    · exact (compGraph_mem he).2

theorem mainComponent_nodup (prefs : List Pref) (target : List Nat) :
    (mainComponent prefs target).Nodup := by
  rcases mainComponent_cases prefs target with h | h
  · rw [h]; exact List.nodup_nil
  · obtain ⟨m, hm, vis', hc⟩ := componentsAux_mem _ _ _ _ h
    rw [hc]; exact reachFrom_nodup _ _ _

theorem topoC_partition (g : List (Nat × Nat)) (rem : List Nat) (d : Nat → Int) (rank : Nat)
    (hnd : rem.Nodup) :
    ((topoC g rem d rank).1.map Prod.fst ++ (topoC g rem d rank).2).Perm rem := by
  refine topoC.induct g
    (fun rem d rank => rem.Nodup →
      ((topoC g rem d rank).1.map Prod.fst ++ (topoC g rem d rank).2).Perm rem)
    ?_ ?_ ?_ rem d rank hnd
  · intro d rank _
    rw [topoC.eq_def]
    simp
  · intro rem d rank h1 h2 _
    rw [topoC.eq_def]
    simp [h1, h2]
  · intro rem d rank h1 h2 st ih hnodup
    have hst : st = layer g rank (rem.filter (fun m => d m = 0)) ([], rem, d) := rfl
    have hL2 : st.2.1 = rem.filter (fun x => !(decide (d x = 0))) := by
      rw [hst, layer_rem_eq, foldl_erase_eq_filter _ _ hnodup]
      refine List.filter_congr ?_
      intro x hx
      by_cases hdx : d x = 0 <;> simp [List.mem_filter, hx, hdx]
    have hsrcnodup : st.2.1.Nodup := by
      rw [hL2]; exact hnodup.filter _
    have hih := ih hsrcnodup
    rw [topoC.eq_def]
    simp only [if_neg h1, dif_neg h2]
    have hL1 : st.1.map Prod.fst = rem.filter (fun m => d m = 0) := by
      rw [hst, layer_fst_eq]
      have hcomp : (Prod.fst ∘ fun s : Nat => (s, rank)) = id := rfl
      rw [List.nil_append, List.map_map, hcomp, List.map_id]
    have hperm2 : List.Perm st.2.1 (rem.filter (fun x => !(decide (d x = 0)))) := by
      rw [hL2]
    refine List.Perm.trans ?_ (List.filter_append_perm (fun m => d m = 0) rem)
    rw [List.map_append, hL1, List.append_assoc]
    exact List.Perm.append_left _ (hih.trans hperm2)

/-- Claim C5: the rank-map keys and the unranked set returned by
`compute_user_rankings` are disjoint, and their union is exactly the set of
candidates that appear in at least one statement and lie in the target set. -/
theorem voterRanking_partition (prefs : List Pref) (target : List Nat) :
    (∀ x, ¬ (x ∈ (computeUserRankings prefs target).1.map Prod.fst ∧
             x ∈ (computeUserRankings prefs target).2)) ∧
    (∀ x, (x ∈ (computeUserRankings prefs target).1.map Prod.fst ∨
           x ∈ (computeUserRankings prefs target).2) ↔
          ((∃ pr ∈ prefs, x = pr.1 ∨ x = pr.2.1) ∧ x ∈ target)) := by
  simp only [computeUserRankings.eq_def]
  split_ifs with h1 h2
  · constructor
    · intro x hx
      simp at hx
    · intro x
      simp [h1]
  · constructor
    · intro x hx
      simp at hx
    · intro x
      have hx : x ∉ moviesToRank prefs target := by rw [h2]; simp
      rw [mem_moviesToRank] at hx
      simp only [List.map_nil, List.not_mem_nil, or_self, false_iff]
      exact hx
  · have hperm := topoC_partition (prefGraph prefs (moviesToRank prefs target))
      (mainComponent prefs target)
      (compInDeg (prefGraph prefs (moviesToRank prefs target)) (mainComponent prefs target)) 1
      (mainComponent_nodup prefs target)
    have hknd : ((topoC (prefGraph prefs (moviesToRank prefs target))
        (mainComponent prefs target)
        (compInDeg (prefGraph prefs (moviesToRank prefs target)) (mainComponent prefs target))
        1).1.map Prod.fst ++
        (topoC (prefGraph prefs (moviesToRank prefs target)) (mainComponent prefs target)
          (compInDeg (prefGraph prefs (moviesToRank prefs target)) (mainComponent prefs target))
          1).2).Nodup :=
      hperm.nodup_iff.mpr (mainComponent_nodup prefs target)
    constructor
    · intro x hx
      obtain ⟨hx1, hx2⟩ := hx
      rcases List.mem_append.mp hx2 with hx3 | hx3
      · have hxmain : x ∈ mainComponent prefs target :=
          hperm.subset (List.mem_append_left _ hx1)
        have := (List.mem_filter.mp hx3).2
        simp [hxmain] at this
      · exact (List.disjoint_of_nodup_append hknd) hx1 hx3
    · intro x
      rw [← @mem_moviesToRank prefs target x]
      constructor
      · rintro (hx | hx)
        · exact mainComponent_sub prefs target x (hperm.subset (List.mem_append_left _ hx))
        · rcases List.mem_append.mp hx with hx3 | hx3
          · exact (List.mem_filter.mp hx3).1
          · exact mainComponent_sub prefs target x
              (hperm.subset (List.mem_append_right _ hx3))
      · intro hx
        by_cases hm : x ∈ mainComponent prefs target
        · rcases List.mem_append.mp (hperm.mem_iff.mpr hm) with hx1 | hx1
          · exact Or.inl hx1
          · exact Or.inr (List.mem_append_right _ hx1)
        · refine Or.inr (List.mem_append_left _ ?_)
          exact List.mem_filter.mpr ⟨hx, by simpa using hm⟩

theorem rpLayer_rem_eq (locked : List (Nat × Nat)) :
    ∀ (ss rem : List Nat) (d : Nat → Int),
      (rpLayer locked ss (rem, d)).1 = ss.foldl List.erase rem := by
  intro ss
  induction ss with
  | nil => intro rem d; rfl
  | cons s rest ih =>
    intro rem d
    simpa [rpLayer, rpStep, List.foldl_cons] using ih (rem.erase s) _

theorem rpLoop_perm (locked : List (Nat × Nat)) (titles : Nat → String) (rem : List Nat)
    (d : Nat → Int) (hnd : rem.Nodup) : (rpLoop locked titles rem d).Perm rem := by
  refine rpLoop.induct locked titles
    (fun rem d => rem.Nodup → (rpLoop locked titles rem d).Perm rem) ?_ ?_ ?_ rem d hnd
  · intro d _
    rw [rpLoop.eq_def]
    simp
  · intro rem d h1 h2 _
    rw [rpLoop.eq_def]
    simp only [if_neg h1, dif_pos h2]
    exact List.perm_insertionSort _ rem
  · intro rem d h1 h2 ss st ih hnodup
    have hss : ss = sortByLabel titles (rem.filter (fun i => d i = 0)) := rfl
    have hst : st = rpLayer locked ss (rem, d) := rfl
    have hL2 : st.1 = rem.filter (fun x => !(decide (d x = 0))) := by
      rw [hst, rpLayer_rem_eq, foldl_erase_eq_filter _ _ hnodup]
      refine List.filter_congr ?_
      intro x hx
      have hmem : x ∈ ss ↔ d x = 0 := by
        rw [hss, sortByLabel, List.mem_insertionSort, List.mem_filter]
        simp [hx]
      by_cases hdx : d x = 0 <;> simp [hmem, hdx]
    have hsnodup : st.1.Nodup := by
      rw [hL2]; exact hnodup.filter _
    have hih := ih hsnodup
    rw [rpLoop.eq_def]
    simp only [if_neg h1, dif_neg h2]
    have hperm1 : List.Perm ss (rem.filter (fun i => d i = 0)) := by
      rw [hss, sortByLabel]
      exact List.perm_insertionSort _ _
    have hperm2 : List.Perm (rpLoop locked titles st.1 st.2)
        (rem.filter (fun x => !(decide (d x = 0)))) := by
      refine hih.trans ?_
      rw [hL2]
    exact (hperm1.append hperm2).trans (List.filter_append_perm _ rem)

/-- Claim C1: for every candidate count, title assignment and pairwise matrix,
the ranking returned by `compute_ranked_pairs` is a permutation of the `n`
candidate positions: it has length `n`, contains exactly the positions below
`n`, and each of them exactly once. -/
theorem finalRanking_perm (n : Nat) (titles : Nat → String) (matrix : Nat → Nat → Int) :
    ((computeRankedPairs n titles matrix).1).Perm (List.range n) ∧
    (computeRankedPairs n titles matrix).1.length = n ∧
    (∀ i, i ∈ (computeRankedPairs n titles matrix).1 ↔ i < n) ∧
    (∀ i, i < n → (computeRankedPairs n titles matrix).1.count i = 1) := by
  have h := rpLoop_perm (rankedPairsLocked n matrix) titles (List.range n)
    (lockedIndeg (rankedPairsLocked n matrix)) (List.nodup_range n)
  refine ⟨h, ?_, ?_, ?_⟩
  · rw [show (computeRankedPairs n titles matrix).1 =
        rpLoop (rankedPairsLocked n matrix) titles (List.range n)
          (lockedIndeg (rankedPairsLocked n matrix)) from rfl]
    rw [h.length_eq, List.length_range]
  · intro i
    rw [show (computeRankedPairs n titles matrix).1 =
        rpLoop (rankedPairsLocked n matrix) titles (List.range n)
          (lockedIndeg (rankedPairsLocked n matrix)) from rfl]
    rw [h.mem_iff, List.mem_range]
  · intro i hi
    refine List.count_eq_one_of_mem (h.nodup_iff.mpr (List.nodup_range n)) ?_
    rw [show (computeRankedPairs n titles matrix).1 =
        rpLoop (rankedPairsLocked n matrix) titles (List.range n)
          (lockedIndeg (rankedPairsLocked n matrix)) from rfl]
    rw [h.mem_iff, List.mem_range]
    exact hi

theorem finalRanking_perm_witness :
    ((computeRankedPairs 2 (fun _ => "a") (fun _ _ => 0)).1).Perm (List.range 2) :=
  (finalRanking_perm 2 (fun _ => "a") (fun _ _ => 0)).1

theorem rpLoop_nil (locked : List (Nat × Nat)) (titles : Nat → String) (d : Nat → Int) :
    rpLoop locked titles [] d = [] := by
  rw [rpLoop.eq_def]
  simp

theorem rpLoop_all_zero (locked : List (Nat × Nat)) (titles : Nat → String) (rem : List Nat)
    (d : Nat → Int) (hnd : rem.Nodup) (hd : ∀ i ∈ rem, d i = 0) :
    rpLoop locked titles rem d = sortByLabel titles rem := by
  by_cases hrem : rem = []
  · subst hrem
    rw [rpLoop_nil, sortByLabel]
    rfl
  · have hfilter : rem.filter (fun i => d i = 0) = rem := by
      refine List.filter_eq_self.mpr ?_
      intro a ha
      simp [hd a ha]
    rw [rpLoop.eq_def]
    rw [if_neg hrem, dif_neg (by rw [hfilter]; exact hrem)]
    have hst : (rpLayer locked (sortByLabel titles (rem.filter (fun i => d i = 0)))
        (rem, d)).1 = [] := by
      rw [rpLayer_rem_eq, foldl_erase_eq_filter _ _ hnd]
      refine List.filter_eq_nil.mpr ?_
      intro a ha
      have : a ∈ sortByLabel titles (rem.filter (fun i => d i = 0)) := by
        rw [sortByLabel, List.mem_insertionSort, hfilter]
        exact ha
      simp [this]
    rw [hfilter] at hst
    simp only [hfilter, hst, rpLoop_nil, List.append_nil]

/-- Claim C7: with zero participating voters the matrix built from an empty
ranking collection is all zeros, no pair record is generated, nothing is
locked, and the final ranking is exactly the candidate positions stably
sorted in ascending label order. -/
theorem zero_voters_spec (ids : List Nat) (titles : Nat → String) (n : Nat) :
    (∀ i j, condorcetMatrix ids [] i j = 0) ∧
    collectPairs n (condorcetMatrix ids []) = [] ∧
    rankedPairsLocked n (condorcetMatrix ids []) = [] ∧
    computeRankedPairs n titles (condorcetMatrix ids []) =
      (sortByLabel titles (List.range n), []) := by
  have hM : ∀ i j, condorcetMatrix ids [] i j = 0 := by
    intro i j
    by_cases h : i = j <;> simp [condorcetMatrix, h]
  have hpairs : collectPairs n (condorcetMatrix ids []) = [] := by
    simp [collectPairs, hM]
  have hlocked : rankedPairsLocked n (condorcetMatrix ids []) = [] := by
    rw [rankedPairsLocked, hpairs]
    rfl
  refine ⟨hM, hpairs, hlocked, ?_⟩
  simp only [computeRankedPairs, hlocked]
  rw [Prod.mk.injEq]
  refine ⟨?_, rfl⟩
  refine rpLoop_all_zero _ _ _ _ (List.nodup_range n) ?_
  intro i _
  rfl

theorem zero_voters_spec_witness :
    computeRankedPairs 2 (fun _ => "a") (condorcetMatrix [3] []) =
      (sortByLabel (fun _ => "a") (List.range 2), []) :=
  (zero_voters_spec [3] (fun _ => "a") 2).2.2.2

theorem reachStep_fold_append (blocked : List Nat) :
    ∀ (l : List (Nat × Nat)) (acc : List Nat),
      ∃ ext, l.foldl
          (fun acc f => if f.1 ∈ acc ∧ f.2 ∉ acc ∧ f.2 ∉ blocked then acc ++ [f.2] else acc)
          acc = acc ++ ext := by
  intro l
  induction l with
  | nil => intro acc; exact ⟨[], by simp⟩
  | cons f rest ih =>
    intro acc
    rw [List.foldl_cons]
    split
    · obtain ⟨ext, hext⟩ := ih (acc ++ [f.2])
      exact ⟨[f.2] ++ ext, by rw [hext, List.append_assoc]⟩
    · exact ih acc

theorem mem_reachStep_fold_edge (blocked : List Nat) (e : Nat × Nat) (hb : e.2 ∉ blocked) :
    ∀ (l : List (Nat × Nat)) (acc : List Nat), e ∈ l → e.1 ∈ acc →
      e.2 ∈ l.foldl
        (fun acc f => if f.1 ∈ acc ∧ f.2 ∉ acc ∧ f.2 ∉ blocked then acc ++ [f.2] else acc)
        acc := by
  intro l
  induction l with
  | nil => intro acc he _; simp at he
  | cons f rest ih =>
    intro acc he hacc
    rw [List.foldl_cons]
    rcases List.mem_cons.mp he with rfl | he2
    · by_cases hc : e.1 ∈ acc ∧ e.2 ∉ acc ∧ e.2 ∉ blocked
      · rw [if_pos hc]
        obtain ⟨ext, hext⟩ := reachStep_fold_append blocked rest (acc ++ [e.2])
        rw [hext]
        exact List.mem_append_left _ (List.mem_append_right _ (List.mem_singleton.mpr rfl))
      · rw [if_neg hc]
        have he2mem : e.2 ∈ acc := by
          by_contra hno
          exact hc ⟨hacc, hno, hb⟩
        obtain ⟨ext, hext⟩ := reachStep_fold_append blocked rest acc
        rw [hext]
        exact List.mem_append_left _ he2mem
    · split
      · exact ih _ he2 (List.mem_append_left _ hacc)
      · exact ih _ he2 hacc

theorem reachStep_fix_closed {g : List (Nat × Nat)} {vis : List Nat}
    (hfix : reachStep g [] vis = vis) : ∀ e ∈ g, e.1 ∈ vis → e.2 ∈ vis := by
  intro e he h1
  have hmem : e.2 ∈ reachStep g [] vis :=
    mem_reachStep_fold_edge [] e (by simp) g vis he h1
  rwa [hfix] at hmem

theorem reachIter_of_fix {g : List (Nat × Nat)} {blocked vis : List Nat}
    (hfix : reachStep g blocked vis = vis) :
    ∀ fuel, reachIter g blocked fuel vis = vis := by
  intro fuel
  induction fuel with
  | zero => rfl
  | succ n ih => rw [reachIter, hfix]; exact ih

theorem reachIter_fix (g : List (Nat × Nat)) (blocked N : List Nat)
    (hN : ∀ e ∈ g, e.2 ∈ N) :
    ∀ (fuel : Nat) (vis : List Nat), vis.Nodup → (∀ x ∈ vis, x ∈ N) →
      N.length ≤ fuel + vis.length →
      reachStep g blocked (reachIter g blocked fuel vis) = reachIter g blocked fuel vis := by
  intro fuel
  induction fuel with
  | zero =>
    intro vis hnd hsub hlen
    show reachStep g blocked vis = vis
    by_contra hne
    obtain ⟨ext, hext⟩ := reachStep_append g blocked vis
    have hextne : ext ≠ [] := by
      rintro rfl
      exact hne (by rw [hext, List.append_nil])
    have hnd' : (reachStep g blocked vis).Nodup := reachStep_nodup hnd
    have hsub' : ∀ x ∈ reachStep g blocked vis, x ∈ N := by
      intro x hx
      rcases mem_reachStep_sub hx with h | ⟨e, he, rfl, _⟩
      · exact hsub x h
      · exact hN e he
    have hle := (List.subperm_of_subset hnd' hsub').length_le
    rw [hext, List.length_append] at hle
    have h1 : 1 ≤ ext.length := by
      cases ext with
      | nil => exact absurd rfl hextne
      | cons _ _ => simp
    omega
  | succ n ih =>
    intro vis hnd hsub hlen
    by_cases hfix : reachStep g blocked vis = vis
    · rw [reachIter_of_fix hfix (n + 1), hfix]
    · rw [reachIter]
      refine ih (reachStep g blocked vis) (reachStep_nodup hnd) ?_ ?_
      · intro x hx
        rcases mem_reachStep_sub hx with h | ⟨e, he, rfl, _⟩
        · exact hsub x h
        · exact hN e he
      · obtain ⟨ext, hext⟩ := reachStep_append g blocked vis
        have hextne : ext ≠ [] := by
          rintro rfl
          exact hfix (by rw [hext, List.append_nil])
        have h1 : 1 ≤ ext.length := by
          cases ext with
          | nil => exact absurd rfl hextne
          | cons _ _ => simp
        rw [hext, List.length_append]
        omega

theorem reachFrom_fix (g : List (Nat × Nat)) (s : Nat) :
    reachStep g [] (reachFrom g [] s) = reachFrom g [] s := by
  refine reachIter_fix g [] (s :: g.map (fun e => e.2)) ?_ (g.length + 1) [s] ?_ ?_ ?_
  · intro e he
    exact List.mem_cons_of_mem _ (List.mem_map_of_mem _ he)
  · exact List.nodup_singleton s
  · intro x hx
    have hxs : x = s := by simpa using hx
    subst hxs
    exact List.mem_cons_self _ _
  · simp

theorem reachStep_fold_closed (g : List (Nat × Nat)) (blocked : List Nat) (P : Nat → Prop)
    (hP : ∀ x y, P x → (x, y) ∈ g → P y) :
    ∀ (l : List (Nat × Nat)) (acc : List Nat), (∀ e ∈ l, e ∈ g) → (∀ x ∈ acc, P x) →
      ∀ x ∈ l.foldl
          (fun acc f => if f.1 ∈ acc ∧ f.2 ∉ acc ∧ f.2 ∉ blocked then acc ++ [f.2] else acc)
          acc, P x := by
  intro l
  induction l with
  | nil => intro acc _ hacc x hx; exact hacc x hx
  | cons f rest ih =>
    intro acc hl hacc x hx
    rw [List.foldl_cons] at hx
    by_cases hc : f.1 ∈ acc ∧ f.2 ∉ acc ∧ f.2 ∉ blocked
    · rw [if_pos hc] at hx
      refine ih _ (fun e he => hl e (List.mem_cons_of_mem _ he)) ?_ x hx
      intro y hy
      rcases List.mem_append.mp hy with hy1 | hy2
      · exact hacc y hy1
      · have hyf : y = f.2 := by simpa using hy2
        subst hyf
        exact hP f.1 f.2 (hacc f.1 hc.1) (hl f (List.mem_cons_self _ _))
    · rw [if_neg hc] at hx
      exact ih _ (fun e he => hl e (List.mem_cons_of_mem _ he)) hacc x hx

theorem reachFrom_closed (g : List (Nat × Nat)) (blocked : List Nat) (s : Nat) (P : Nat → Prop)
    (hP : ∀ x y, P x → (x, y) ∈ g → P y) (hs : P s) :
    ∀ x ∈ reachFrom g blocked s, P x := by
  rw [reachFrom]
  generalize g.length + 1 = fuel
  have hvis : ∀ x ∈ ([s] : List Nat), P x := by
    intro x hx
    have hxs : x = s := by simpa using hx
    subst hxs
    exact hs
  generalize hv : ([s] : List Nat) = vis at hvis
  clear hv
  induction fuel generalizing vis with
  | zero => exact hvis
  | succ n ih =>
    rw [reachIter]
    refine ih _ ?_
    intro x hx
    exact reachStep_fold_closed g blocked P hP g vis (fun _ he => he) hvis x hx

theorem reachFrom_sound (g : List (Nat × Nat)) (s : Nat) :
    ∀ x ∈ reachFrom g [] s, EdgeReach g s x :=
  reachFrom_closed g [] s (EdgeReach g s)
    (fun _ _ hx hxy => Relation.ReflTransGen.tail hx hxy) Relation.ReflTransGen.refl

theorem reachFrom_complete (g : List (Nat × Nat)) (s x : Nat) (h : EdgeReach g s x) :
    x ∈ reachFrom g [] s := by
  induction h with
  | refl => exact start_mem_reachFrom g [] s
  | tail h1 h2 ih => exact reachStep_fix_closed (reachFrom_fix g s) _ h2 ih

theorem wouldCreateCycle_iff (g : List (Nat × Nat)) (w l : Nat) :
    wouldCreateCycle g w l = true ↔ EdgeReach g l w := by
  rw [wouldCreateCycle, decide_eq_true_iff]
  constructor
  · intro h
    exact reachFrom_sound g l w h
  · exact reachFrom_complete g l w

theorem edgeReach_append_decomp {g : List (Nat × Nat)} {w l : Nat} (hcyc : ¬ EdgeReach g l w) :
    ∀ {x y : Nat}, EdgeReach (g ++ [(w, l)]) x y →
      EdgeReach g x y ∨ (EdgeReach g x w ∧ EdgeReach g l y) := by
  intro x y h
  induction h with
  | refl => exact Or.inl Relation.ReflTransGen.refl
  | tail h1 h2 ih =>
    rcases List.mem_append.mp h2 with hg | hnew
    · rcases ih with h3 | ⟨h3, h4⟩
      · exact Or.inl (h3.tail hg)
      · exact Or.inr ⟨h3, h4.tail hg⟩
    · have hbc := List.mem_singleton.mp hnew
      rw [Prod.mk.injEq] at hbc
      obtain ⟨rfl, rfl⟩ := hbc
      rcases ih with h3 | ⟨h3, h4⟩
      · exact Or.inr ⟨h3, Relation.ReflTransGen.refl⟩
      · exact absurd h4 hcyc

theorem acyclic_append {g : List (Nat × Nat)} {w l : Nat} (hac : AcyclicEdges g)
    (hcyc : ¬ EdgeReach g l w) : AcyclicEdges (g ++ [(w, l)]) := by
  intro e he hreach
  rcases List.mem_append.mp he with heg | henew
  · rcases edgeReach_append_decomp hcyc hreach with h | ⟨h1, h2⟩
    · exact hac e heg h
    · exact hcyc ((h2.tail heg).trans h1)
  · have hewl : e = (w, l) := by simpa using henew
    subst hewl
    rcases edgeReach_append_decomp hcyc hreach with h | ⟨h1, _⟩
    · exact hcyc h
    · exact hcyc h1

theorem acyclic_lockStep {g : List (Nat × Nat)} (hac : AcyclicEdges g)
    (p : Nat × Nat × Int × Int) : AcyclicEdges (lockStep g p) := by
  rw [lockStep]
  split
  · exact hac
  · rename_i hw
    refine acyclic_append hac ?_
    intro hreach
    exact hw ((wouldCreateCycle_iff g p.1 p.2.1).mpr hreach)

theorem acyclic_nil : AcyclicEdges [] := fun e he => absurd he (List.not_mem_nil e)

theorem acyclic_lockPairs_fold :
    ∀ (ps : List (Nat × Nat × Int × Int)) (g : List (Nat × Nat)),
      AcyclicEdges g → AcyclicEdges (ps.foldl lockStep g) := by
  intro ps
  induction ps with
  | nil => intro g h; exact h
  | cons p rest ih =>
    intro g h
    rw [List.foldl_cons]
    exact ih _ (acyclic_lockStep h p)

/-- Claim C2: the locked graph is acyclic after every locking step (each
prefix of the sorted pair list) and at the end; an edge is added only when
the winner is not reachable from the loser over the already-locked edges
(`would_create_cycle` decides exactly that reachability). -/
theorem lockedGraph_acyclic (n : Nat) (titles : Nat → String) (matrix : Nat → Nat → Int)
    (k : Nat) :
    AcyclicEdges (lockPairs ((sortPairs (collectPairs n matrix)).take k)) ∧
    (computeRankedPairs n titles matrix).2 = lockPairs (sortPairs (collectPairs n matrix)) ∧
    AcyclicEdges ((computeRankedPairs n titles matrix).2) ∧
    (∀ (g : List (Nat × Nat)) (w l : Nat), wouldCreateCycle g w l = true ↔ EdgeReach g l w) := by
  refine ⟨?_, rfl, ?_, wouldCreateCycle_iff⟩
  · rw [lockPairs]
    exact acyclic_lockPairs_fold _ _ acyclic_nil
  · rw [show (computeRankedPairs n titles matrix).2 = rankedPairsLocked n matrix from rfl,
      rankedPairsLocked, lockPairs]
    exact acyclic_lockPairs_fold _ _ acyclic_nil

theorem lockedGraph_acyclic_witness :
    AcyclicEdges ((computeRankedPairs 2 (fun _ => "a") (fun _ _ => 0)).2) :=
  (lockedGraph_acyclic 2 (fun _ => "a") (fun _ _ => 0) 0).2.2.1

theorem insertionSort_filter_stable {α : Type} (r : α → α → Prop) [DecidableRel r]
    (q : α → Bool) :
    ∀ l : List α, (∀ a ∈ l, ∀ b ∈ l, q a = true → q b = true → r a b) →
      (l.insertionSort r).filter q = l.filter q := by
  intro l
  induction l with
  | nil => intro _; rfl
  | cons a l ih =>
    intro hq
    have hq' : ∀ x ∈ l, ∀ y ∈ l, q x = true → q y = true → r x y := fun x hx y hy =>
      hq x (List.mem_cons_of_mem _ hx) y (List.mem_cons_of_mem _ hy)
    have hsplit : (l.insertionSort r).filter q =
        ((l.insertionSort r).takeWhile fun b => decide (¬ r a b)).filter q ++
          ((l.insertionSort r).dropWhile fun b => decide (¬ r a b)).filter q := by
      rw [← List.filter_append, List.takeWhile_append_dropWhile]
    simp only [List.insertionSort, List.orderedInsert_eq_take_drop, List.filter_append]
    by_cases ha : q a = true
    · have htake : ((l.insertionSort r).takeWhile fun b => decide (¬ r a b)).filter q = [] := by
        rw [List.filter_eq_nil_iff]
        intro b hb
        have hnr : ¬ r a b := by simpa using List.mem_takeWhile_imp hb
        intro hqb
        refine hnr (hq a (List.mem_cons_self _ _) b ?_ ha hqb)
        exact List.mem_cons_of_mem _
          ((List.mem_insertionSort r).mp ((List.takeWhile_sublist _).subset hb))
      rw [htake, List.nil_append, List.filter_cons, if_pos ha, List.filter_cons, if_pos ha]
      congr 1
      have hdrop : ((l.insertionSort r).dropWhile fun b => decide (¬ r a b)).filter q =
          l.filter q := by
        rw [← ih hq', hsplit, htake, List.nil_append]
      exact hdrop
    · rw [List.filter_cons, if_neg ha, List.filter_cons, if_neg ha, ← ih hq', hsplit]

theorem reachFrom_headD (g : List (Nat × Nat)) (blocked : List Nat) (s : Nat) :
    (reachFrom g blocked s).headD 0 = s := by
  rw [List.headD_eq_head?_getD, reachFrom_head]
  rfl

theorem componentsAux_heads_sublist (g : List (Nat × Nat)) :
    ∀ (l visited : List Nat),
      ((componentsAux g l visited).map (fun c => c.headD 0)).Sublist l := by
  intro l
  induction l with
  | nil => intro visited; simp [componentsAux]
  | cons m rest ih =>
    intro visited
    simp only [componentsAux]
    by_cases hm : m ∈ visited
    · rw [if_pos hm]
      exact (ih visited).cons m
    · rw [if_neg hm, List.map_cons, reachFrom_headD]
      exact (ih (visited ++ reachFrom g visited m)).cons₂ m

theorem indexOf_append_ge (x : Nat) :
    ∀ (pre l' : List Nat), x ∉ pre → pre.length ≤ (pre ++ l').indexOf x := by
  intro pre
  induction pre with
  | nil => intro l' _; simp
  | cons p ps ih =>
    intro l' hx
    have hxp : p ≠ x := fun h => hx (h ▸ List.mem_cons_self _ _)
    rw [List.cons_append, List.indexOf_cons_ne _ hxp, List.length_cons]
    exact Nat.succ_le_succ (ih l' (fun h => hx (List.mem_cons_of_mem _ h)))

theorem indexOf_append_head (m : Nat) :
    ∀ (pre l' : List Nat), m ∉ pre → (pre ++ m :: l').indexOf m = pre.length := by
  intro pre
  induction pre with
  | nil => intro l' _; simp
  | cons p ps ih =>
    intro l' hm
    have hmp : p ≠ m := fun h => hm (h ▸ List.mem_cons_self _ _)
    rw [List.cons_append, List.indexOf_cons_ne _ hmp, List.length_cons,
      ih l' (fun h => hm (List.mem_cons_of_mem _ h))]

theorem componentsAux_min_index (g : List (Nat × Nat)) (ids : List Nat) (hnd : ids.Nodup) :
    ∀ (l processed visited : List Nat), ids = processed ++ l →
      (∀ x ∈ processed, x ∈ visited) →
      ∀ c ∈ componentsAux g l visited, ∀ x ∈ c,
        ids.indexOf (c.headD 0) ≤ ids.indexOf x := by
  intro l
  induction l with
  | nil => intro processed visited _ _ c hc; simp [componentsAux] at hc
  | cons m rest ih =>
    intro processed visited hids hpv c hc
    simp only [componentsAux] at hc
    by_cases hm : m ∈ visited
    · rw [if_pos hm] at hc
      refine ih (processed ++ [m]) visited ?_ ?_ c hc
      · rw [hids, List.append_assoc]
        rfl
      · intro x hx
        rcases List.mem_append.mp hx with h | h
        · exact hpv x h
        · have hxm : x = m := by simpa using h
          rw [hxm]
          exact hm
    · rw [if_neg hm] at hc
      have hmnp : m ∉ processed := fun h => hm (hpv m h)
      rcases List.mem_cons.mp hc with rfl | hc2
      · intro x hx
        rw [reachFrom_headD, hids, indexOf_append_head m processed rest hmnp]
        rcases mem_reachFrom_sub hx with hxm | ⟨e, _, hxe, hnb⟩
        · rw [hxm, indexOf_append_head m processed rest hmnp]
        · rw [hxe] at hnb ⊢
          exact indexOf_append_ge e.2 processed (m :: rest)
            (fun h => hnb (hpv e.2 h))
      · refine ih (processed ++ [m]) (visited ++ reachFrom g visited m) ?_ ?_ c hc2
        · rw [hids, List.append_assoc]
          rfl
        · intro x hx
          rcases List.mem_append.mp hx with h | h
          · exact List.mem_append_left _ (hpv x h)
          · have hxm : x = m := by simpa using h
            rw [hxm]
            exact List.mem_append_right _ (start_mem_reachFrom g visited m)

theorem head?_filter_eq_find? {α : Type} (p : α → Bool) :
    ∀ l : List α, (l.filter p).head? = l.find? p := by
  intro l
  induction l with
  | nil => rfl
  | cons a t ih =>
    rw [List.filter_cons, List.find?_cons]
    by_cases hp : p a = true
    · rw [if_pos hp, hp]
      rfl
    · rw [if_neg hp]
      cases hpa : p a with
      | true => exact absurd hpa hp
      | false => exact ih

theorem maxCompLen_le {cs : List (List Nat)} {k : Nat} (h : ∀ c ∈ cs, c.length ≤ k) :
    maxCompLen cs ≤ k := by
  induction cs with
  | nil => exact Nat.zero_le k
  | cons c rest ih =>
    rw [maxCompLen, List.foldr_cons]
    exact max_le (h c (List.mem_cons_self _ _))
      (ih (fun c' hc' => h c' (List.mem_cons_of_mem _ hc')))

theorem le_maxCompLen {cs : List (List Nat)} {c : List Nat} (h : c ∈ cs) :
    c.length ≤ maxCompLen cs := by
  induction cs with
  | nil => simp at h
  | cons c' rest ih =>
    rw [maxCompLen, List.foldr_cons]
    rcases List.mem_cons.mp h with rfl | h2
    · exact le_max_left _ _
    · exact le_trans (ih h2) (le_max_right _ _)

theorem insertionSort_head_first_max (cs : List (List Nat)) :
    (cs.insertionSort compLenLe).head? =
      cs.find? (fun c => maxCompLen cs ≤ c.length) := by
  cases hcs : cs.insertionSort compLenLe with
  | nil =>
    have hlen := congrArg List.length hcs
    rw [List.length_insertionSort] at hlen
    have hnil : cs = [] := List.length_eq_zero.mp hlen
    subst hnil
    rfl
  | cons h t =>
    have hsorted := List.sorted_insertionSort compLenLe cs
    rw [hcs, List.sorted_cons] at hsorted
    have hperm := List.perm_insertionSort compLenLe cs
    have hball : ∀ c ∈ cs, c.length ≤ h.length := by
      intro c hc
      have hc2 : c ∈ h :: t := by
        rw [← hcs]
        exact (List.mem_insertionSort compLenLe).mpr hc
      rcases List.mem_cons.mp hc2 with rfl | hc3
      · exact Nat.le_refl _
      · exact hsorted.1 c hc3
    have hmax : maxCompLen cs ≤ h.length := maxCompLen_le hball
    have hstab := insertionSort_filter_stable compLenLe
      (fun c => decide (maxCompLen cs ≤ c.length)) cs ?_
    · have hq : decide (maxCompLen cs ≤ h.length) = true := decide_eq_true hmax
      calc (h :: t).head? = some h := rfl
        _ = ((h :: t).filter (fun c => decide (maxCompLen cs ≤ c.length))).head? := by
            rw [List.filter_cons, if_pos hq]
            rfl
        _ = ((cs.insertionSort compLenLe).filter
              (fun c => decide (maxCompLen cs ≤ c.length))).head? := by rw [hcs]
        _ = (cs.filter (fun c => decide (maxCompLen cs ≤ c.length))).head? := by rw [hstab]
        _ = cs.find? (fun c => maxCompLen cs ≤ c.length) := head?_filter_eq_find? _ cs
    · intro a ha b hb hqa hqb
      have ha2 : a.length ≤ maxCompLen cs := le_maxCompLen ha
      have hb2 : b.length ≤ maxCompLen cs := le_maxCompLen hb
      have hqa2 : maxCompLen cs ≤ a.length := of_decide_eq_true hqa
      have hqb2 : maxCompLen cs ≤ b.length := of_decide_eq_true hqb
      rw [compLenLe]
      omega

/-- Claim C9: components are discovered in the order candidates first appear
in the voter's statements, restricted to the target set (`movies_to_rank`): the
component heads form an in-order sublist of that list and each head is the
earliest-appearing member of its component; the main component is the first
component of maximal size in discovery order; and every candidate outside the
main component ends up unranked. -/
theorem component_discovery_spec (prefs : List Pref) (target : List Nat) :
    ((componentsOf prefs (moviesToRank prefs target)).map (fun c => c.headD 0)).Sublist
      (moviesToRank prefs target) ∧
    (∀ c ∈ componentsOf prefs (moviesToRank prefs target), ∀ x ∈ c,
      (moviesToRank prefs target).indexOf (c.headD 0) ≤
        (moviesToRank prefs target).indexOf x) ∧
    mainComponent prefs target =
      ((componentsOf prefs (moviesToRank prefs target)).find?
        (fun c => maxCompLen (componentsOf prefs (moviesToRank prefs target)) ≤
          c.length)).getD [] ∧
    (∀ x ∈ moviesToRank prefs target, x ∉ mainComponent prefs target →
      x ∈ (computeUserRankings prefs target).2) := by
  refine ⟨?_, ?_, ?_, ?_⟩
  · exact componentsAux_heads_sublist _ _ []
  · exact componentsAux_min_index _ _ (moviesToRank_nodup prefs target) _ [] [] rfl
      (fun x hx => by simp at hx)
  · rw [mainComponent, List.headD_eq_head?_getD, insertionSort_head_first_max]
  · intro x hx hm
    simp only [computeUserRankings.eq_def]
    split_ifs with h1 h2
    · subst h1
      have : moviesToRank [] target = [] := rfl
      rw [this] at hx
      simp at hx
    · rw [h2] at hx
      simp at hx
    · refine List.mem_append_left _ ?_
      exact List.mem_filter.mpr ⟨hx, by simpa using hm⟩

theorem component_discovery_spec_witness :
    (([0, 1] : List Nat) ∈ componentsOf [(0, 1, 1)] (moviesToRank [(0, 1, 1)] [0, 1]) ∧
      (1 : Nat) ∈ ([0, 1] : List Nat)) ∧
    (moviesToRank [(0, 1, 1)] [0, 1]).indexOf (([0, 1] : List Nat).headD 0) ≤
      (moviesToRank [(0, 1, 1)] [0, 1]).indexOf 1 :=
  ⟨⟨by decide, by decide⟩,
    (component_discovery_spec [(0, 1, 1)] [0, 1]).2.1 [0, 1] (by decide) 1 (by decide)⟩

theorem mem_collectPairs (n : Nat) (matrix : Nat → Nat → Int) (p : Nat × Nat × Int × Int) :
    p ∈ collectPairs n matrix ↔
      ∃ i j, i < j ∧ j < n ∧
        ((matrix j i < matrix i j ∧ p = (i, j, matrix i j - matrix j i, matrix i j)) ∨
         (matrix i j < matrix j i ∧ p = (j, i, matrix j i - matrix i j, matrix j i))) := by
  rw [collectPairs, List.mem_flatMap]
  constructor
  · rintro ⟨i, hi, hp⟩
    rw [List.mem_filterMap] at hp
    obtain ⟨j, hj, hpj⟩ := hp
    rw [List.mem_range'_1] at hj
    rw [List.mem_range] at hi
    refine ⟨i, j, by omega, by omega, ?_⟩
    by_cases h1 : matrix j i < matrix i j
    · rw [if_pos h1] at hpj
      exact Or.inl ⟨h1, (Option.some.inj hpj).symm⟩
    · rw [if_neg h1] at hpj
      by_cases h2 : matrix i j < matrix j i
      · rw [if_pos h2] at hpj
        exact Or.inr ⟨h2, (Option.some.inj hpj).symm⟩
      · rw [if_neg h2] at hpj
        exact absurd hpj (Option.noConfusion)
  · rintro ⟨i, j, hij, hjn, hcase⟩
    refine ⟨i, List.mem_range.mpr (by omega), ?_⟩
    rw [List.mem_filterMap]
    refine ⟨j, List.mem_range'_1.mpr ⟨by omega, by omega⟩, ?_⟩
    rcases hcase with ⟨h1, rfl⟩ | ⟨h2, rfl⟩
    · rw [if_pos h1]
    · rw [if_neg (by omega), if_pos h2]

/-- Claim C4: for `i < j < n` a pair record with endpoints `{i, j}` exists if
and only if the two matrix counts differ; every record names the side with
the larger count as winner, carries margin equal to the absolute difference
and total votes equal to the larger count; and the records are sorted by the
stable sort descending on margin then on total votes, so records tied on both
keys keep their generation order. -/
theorem pair_records_spec (n : Nat) (matrix : Nat → Nat → Int) :
    (∀ i j, i < j → j < n →
      (matrix i j ≠ matrix j i ↔
        ∃ p ∈ collectPairs n matrix, (p.1 = i ∧ p.2.1 = j) ∨ (p.1 = j ∧ p.2.1 = i))) ∧
    (∀ p ∈ collectPairs n matrix,
      matrix p.2.1 p.1 < matrix p.1 p.2.1 ∧
      p.2.2.1 = |matrix p.1 p.2.1 - matrix p.2.1 p.1| ∧
      p.2.2.2 = max (matrix p.1 p.2.1) (matrix p.2.1 p.1)) ∧
    sortPairs (collectPairs n matrix) = (collectPairs n matrix).insertionSort pairLe ∧
    List.Sorted pairLe (sortPairs (collectPairs n matrix)) ∧
    (sortPairs (collectPairs n matrix)).Perm (collectPairs n matrix) ∧
    (∀ m t : Int,
      (sortPairs (collectPairs n matrix)).filter (fun p => p.2.2.1 = m ∧ p.2.2.2 = t) =
        (collectPairs n matrix).filter (fun p => p.2.2.1 = m ∧ p.2.2.2 = t)) := by
  refine ⟨?_, ?_, rfl, ?_, ?_, ?_⟩
  · intro i j hij hjn
    constructor
    · intro hne
      by_cases h1 : matrix j i < matrix i j
      · refine ⟨(i, j, matrix i j - matrix j i, matrix i j), ?_, Or.inl ⟨rfl, rfl⟩⟩
        exact (mem_collectPairs n matrix _).mpr ⟨i, j, hij, hjn, Or.inl ⟨h1, rfl⟩⟩
      · have h2 : matrix i j < matrix j i := by omega
        refine ⟨(j, i, matrix j i - matrix i j, matrix j i), ?_, Or.inr ⟨rfl, rfl⟩⟩
        exact (mem_collectPairs n matrix _).mpr ⟨i, j, hij, hjn, Or.inr ⟨h2, rfl⟩⟩
    · rintro ⟨p, hp, hor⟩
      obtain ⟨i', j', hij', hj'n, hcase⟩ := (mem_collectPairs n matrix p).mp hp
      rcases hcase with ⟨h1, rfl⟩ | ⟨h2, rfl⟩ <;>
        rcases hor with ⟨he1, he2⟩ | ⟨he1, he2⟩ <;>
          simp only at he1 he2 <;> subst he1 <;> subst he2 <;> omega
  · intro p hp
    obtain ⟨i, j, hij, hjn, hcase⟩ := (mem_collectPairs n matrix p).mp hp
    rcases hcase with ⟨h1, rfl⟩ | ⟨h2, rfl⟩
    · refine ⟨h1, ?_, ?_⟩
      · simp only
        rw [abs_of_pos (by omega)]
      · simp only
        exact (max_eq_left (le_of_lt h1)).symm
    · refine ⟨h2, ?_, ?_⟩
      · simp only
        rw [abs_of_pos (by omega)]
      · simp only
        exact (max_eq_left (le_of_lt h2)).symm
  · rw [sortPairs]
    exact List.sorted_insertionSort pairLe _
  · rw [sortPairs]
    exact List.perm_insertionSort pairLe _
  · intro m t
    rw [sortPairs]
    refine insertionSort_filter_stable pairLe _ _ ?_
    intro a _ b _ ha hb
    simp only [decide_eq_true_eq] at ha hb
    right
    exact ⟨ha.1.trans hb.1.symm, by rw [ha.2, hb.2]⟩

theorem pair_records_spec_witness :
    ((0 : Nat) < 1 ∧ 1 < 2) ∧
    ((fun i j : Nat => if i = 0 ∧ j = 1 then (1 : Int) else 0) 0 1 ≠
        (fun i j : Nat => if i = 0 ∧ j = 1 then (1 : Int) else 0) 1 0 ↔
      ∃ p ∈ collectPairs 2 (fun i j : Nat => if i = 0 ∧ j = 1 then (1 : Int) else 0),
        (p.1 = 0 ∧ p.2.1 = 1) ∨ (p.1 = 1 ∧ p.2.1 = 0)) :=
  ⟨⟨by decide, by decide⟩,
    (pair_records_spec 2 (fun i j : Nat => if i = 0 ∧ j = 1 then (1 : Int) else 0)).1 0 1
      (by decide) (by decide)⟩

theorem voterRanking_partition_witness :
    (0 ∈ (computeUserRankings [(0, 1, 1)] [0, 1]).1.map Prod.fst ∨
     0 ∈ (computeUserRankings [(0, 1, 1)] [0, 1]).2) ↔
    ((∃ pr ∈ [((0 : Nat), (1 : Nat), (1 : Int))], (0 : Nat) = pr.1 ∨ 0 = pr.2.1) ∧
      (0 : Nat) ∈ [0, 1]) :=
  (voterRanking_partition [(0, 1, 1)] [0, 1]).2 0

end DemocracyBot

